import Mathlib

/-!
Verification of the per-read container (`Read`) of the whatshap repository
against its design specification.

The repository provides `src/read.h`, which fixes the record layout
(`enriched_entry_t`), the position comparator (`entry_comparator_t`), the field
types (`std::string name; int mapq; int id; std::vector<enriched_entry_t>
variants;`) and all member signatures.  The member-function bodies (`read.cpp`)
and the `Entry` class (`entry.h`) are not part of the provided sources, so those
bodies are modelled from the specification, faithful to its words; each such
definition carries a doc comment saying so.

Machine integers (`int` positions, `unsigned int` set elements) are modelled as
`Int`, with the C++ `int → unsigned int` conversion made explicit as reduction
modulo 2^32.  Fallible queries (empty-sequence or out-of-range access, which the
spec requires to fail fast) are modelled as `Option`-returning functions, where
`none` is the fail-fast outcome.
-/

namespace WhatsHap

/-- Modelled from the spec: `entry.h` is not among the provided sources.
An `Entry` is an immutable record of an allele label and a quality score; the
constructor call `Entry(0, Entry::allele_t(allele), quality)` in `read.h` shows
a leading read-identifier argument that the `Read` container always passes
as `0`. -/
structure Entry where
  read_id : Int
  allele : Int
  quality : Int
deriving DecidableEq, Repr

/-- The per-position record stored by a `Read`
(struct `enriched_entry_t` in `read.h`): an `Entry` plus the genomic position
and the base call. -/
structure enriched_entry_t where
  entry : Entry
  position : Int
  base : Char
deriving DecidableEq, Repr

/-- The constructor
`enriched_entry_t(int position, char base, int allele, int quality)` from
`read.h`: it builds the embedded entry as `Entry(0, allele, quality)` and
stores `position` and `base` verbatim. -/
def enriched_entry_t.ofArgs (position : Int) (base : Char) (allele : Int)
    (quality : Int) : enriched_entry_t :=
  { entry := { read_id := 0, allele := allele, quality := quality },
    position := position, base := base }

/-- The comparator `entry_comparator_t` from `read.h`:
`e1.position < e2.position`. -/
def entry_comparator_t (e1 e2 : enriched_entry_t) : Bool :=
  decide (e1.position < e2.position)

/-- The order actually established by sorting with `entry_comparator_t`:
a sequence sorted with a strict-weak-order comparator `cmp` satisfies
`¬ cmp (a j) (a i)` for `i ≤ j`, i.e. positions are non-decreasing. -/
def posLE (e1 e2 : enriched_entry_t) : Prop :=
  e1.position ≤ e2.position

instance : DecidableRel posLE := fun e1 e2 => Int.decLe e1.position e2.position

instance : IsTotal enriched_entry_t posLE :=
  ⟨fun e1 e2 => Int.le_total e1.position e2.position⟩

instance : IsTrans enriched_entry_t posLE :=
  ⟨fun _ _ _ h1 h2 => le_trans h1 h2⟩

instance : IsRefl enriched_entry_t posLE :=
  ⟨fun e => le_refl e.position⟩

theorem posLE_iff_not_comparator (e1 e2 : enriched_entry_t) :
    posLE e1 e2 ↔ entry_comparator_t e2 e1 = false := by
  simp [posLE, entry_comparator_t, Int.not_lt]

/-- The `Read` class of `read.h`: an identifying name, a mapping quality, a
mutable integer identifier, and the sequence of per-position records. -/
structure Read where
  name : String
  mapq : Int
  id : Int
  variants : List enriched_entry_t
deriving DecidableEq, Repr

/-- Modelled from the spec: the body of the constructor
`Read(const std::string& name, int mapq)` is not among the provided sources.
Per the spec it yields an empty variant sequence and an unset id holding a
distinguishable negative sentinel (`-1`); construction never fails. -/
def Read.construct (name : String) (mapq : Int) : Read :=
  { name := name, mapq := mapq, id := -1, variants := [] }

/-- Modelled from the spec: the body of
`addVariant(int position, char base, int allele, int quality)` is not among
the provided sources.  Per the spec it appends the record
`enriched_entry_t(position, base, allele, quality)` at the end of `variants`,
with no validation and no reordering. -/
def Read.addVariant (r : Read) (position : Int) (base : Char) (allele : Int)
    (quality : Int) : Read :=
  { r with variants := r.variants ++ [enriched_entry_t.ofArgs position base allele quality] }

/-- Modelled from the spec: the body of `sortVariants()` is not among the
provided sources.  Per the spec it reorders `variants` ascending by
`position`, the order being the one induced by `entry_comparator_t` of
`read.h` (see `posLE_iff_not_comparator`); modelled as an insertion sort by
`posLE`. -/
def Read.sortVariants (r : Read) : Read :=
  { r with variants := r.variants.insertionSort posLE }

/-- Modelled from the spec: the body of `firstPosition()` is not among the
provided sources.  Per `read.h` it returns the position of the first variant;
per the spec an empty sequence is a precondition violation that must fail
fast, modelled as `none`. -/
def Read.firstPosition (r : Read) : Option Int :=
  r.variants.head?.map (fun e => e.position)

/-- Modelled from the spec: the body of `lastPosition()` is not among the
provided sources.  Per `read.h` it returns the position of the last variant;
per the spec an empty sequence is a precondition violation that must fail
fast, modelled as `none`. -/
def Read.lastPosition (r : Read) : Option Int :=
  r.variants.getLast?.map (fun e => e.position)

/-- Modelled from the spec: the body of `setID(int id)` is not among the
provided sources.  Per the spec it assigns the identifier, last write wins. -/
def Read.setID (r : Read) (id : Int) : Read :=
  { r with id := id }

/-- Modelled from the spec: the body of `getID()` is not among the provided
sources.  Per the spec it returns the previously assigned identifier, or the
unset sentinel if never assigned. -/
def Read.getID (r : Read) : Int :=
  r.id

/-- The C++ conversion `int → unsigned int` applied when a stored (signed)
position is inserted into the caller's `std::unordered_set<unsigned int>`:
reduction modulo 2^32. -/
def uintOfInt (p : Int) : Nat :=
  (p % (2 ^ 32 : Int)).toNat

/-- Modelled from the spec: the body of
`addPositionsToSet(std::unordered_set<unsigned int>* set)` is not among the
provided sources.  Per the spec it inserts every stored `position` value into
the caller-supplied set, purely additively; each inserted element undergoes
the `int → unsigned int` conversion that the signature in `read.h` imposes. -/
def Read.addPositionsToSet (r : Read) (s : Finset ℕ) : Finset ℕ :=
  r.variants.foldl (fun acc e => insert (uintOfInt e.position) acc) s

/-- Modelled from the spec: the body of `getPosition(size_t variant_idx)` is
not among the provided sources.  Per `read.h` it returns the position at the
given index; per the spec an out-of-range index is a precondition violation
that must fail fast, modelled as `none`. -/
def Read.getPosition (r : Read) (variant_idx : Nat) : Option Int :=
  (r.variants.get? variant_idx).map (fun e => e.position)

/-- Modelled from the spec: the body of `getEntry(size_t variant_idx)` is not
among the provided sources.  Per `read.h` it returns (a read-only view of) the
entry at the given index; per the spec an out-of-range index is a
precondition violation that must fail fast, modelled as `none`. -/
def Read.getEntry (r : Read) (variant_idx : Nat) : Option Entry :=
  (r.variants.get? variant_idx).map (fun e => e.entry)

/-- Modelled from the spec: the body of `getVariantCount()` is not among the
provided sources.  Per the spec it returns the current number of per-position
records. -/
def Read.getVariantCount (r : Read) : Nat :=
  r.variants.length

/-- A whole loading phase: fold a list of `(position, base, allele, quality)`
argument tuples through `addVariant`. -/
def Read.appendAll (r : Read) (args : List (Int × Char × Int × Int)) : Read :=
  args.foldl (fun r t => r.addVariant t.1 t.2.1 t.2.2.1 t.2.2.2) r

/-! ### Helper lemmas -/

theorem sortVariants_variants (r : Read) :
    r.sortVariants.variants = r.variants.insertionSort posLE :=
  rfl

theorem sortVariants_perm (r : Read) :
    (r.sortVariants.variants).Perm r.variants :=
  List.perm_insertionSort posLE r.variants

theorem foldl_insert_eq_union (l : List enriched_entry_t) (s : Finset ℕ) :
    l.foldl (fun acc e => insert (uintOfInt e.position) acc) s
      = s ∪ (l.map (fun e => uintOfInt e.position)).toFinset := by
  induction l generalizing s with
  | nil => simp
  | cons e l ih =>
      simp [List.foldl_cons, ih, Finset.insert_union, Finset.union_insert]

theorem appendAll_variants (r : Read) (args : List (Int × Char × Int × Int)) :
    (r.appendAll args).variants
      = r.variants
          ++ args.map (fun t => enriched_entry_t.ofArgs t.1 t.2.1 t.2.2.1 t.2.2.2) := by
  induction args generalizing r with
  | nil => simp [Read.appendAll]
  | cons t args ih =>
      show (Read.appendAll (r.addVariant t.1 t.2.1 t.2.2.1 t.2.2.2) args).variants = _
      rw [ih]
      simp [Read.addVariant]

/-! ### Claim theorems -/

/-- C1: For every `Read` (hence for every sequence of `addVariant` calls),
`sortVariants` yields a variant sequence whose positions are non-decreasing
(for all indices `i ≤ j`, `getPosition i ≤ getPosition j`), and
`getVariantCount` is unchanged by the sort. -/
theorem sortVariants_monotone_and_count_preserved (r : Read) (i j : Nat)
    (hij : i ≤ j) (hj : j < r.sortVariants.getVariantCount) :
    r.sortVariants.getVariantCount = r.getVariantCount ∧
    ∃ a b, r.sortVariants.getPosition i = some a ∧
      r.sortVariants.getPosition j = some b ∧ a ≤ b := by
  simp only [Read.getVariantCount, Read.getPosition, sortVariants_variants] at hj ⊢
  refine ⟨(List.perm_insertionSort posLE r.variants).length_eq, ?_⟩
  have hi : i < (r.variants.insertionSort posLE).length := Nat.lt_of_le_of_lt hij hj
  have hsorted := List.sorted_insertionSort posLE r.variants
  have hrel : posLE ((r.variants.insertionSort posLE).get ⟨i, hi⟩)
      ((r.variants.insertionSort posLE).get ⟨j, hj⟩) :=
    hsorted.rel_get_of_le (Fin.mk_le_mk.mpr hij)
  refine ⟨((r.variants.insertionSort posLE).get ⟨i, hi⟩).position,
    ((r.variants.insertionSort posLE).get ⟨j, hj⟩).position, ?_, ?_, hrel⟩
  · rw [List.get?_eq_getElem?, List.getElem?_eq_getElem hi]
    simp [List.get_eq_getElem]
  · rw [List.get?_eq_getElem?, List.getElem?_eq_getElem hj]
    simp [List.get_eq_getElem]

/-- C1 witness: the concrete scenario from the spec — append positions 100
then 50, sort, and observe positions 50 ≤ 100 at indices 0 and 1 with the
count preserved. -/
theorem sortVariants_monotone_and_count_preserved_witness :
    (((Read.construct "r1" 60).addVariant 100 'A' 0 30).addVariant 50 'T' 1 20).sortVariants.getVariantCount
      = (((Read.construct "r1" 60).addVariant 100 'A' 0 30).addVariant 50 'T' 1 20).getVariantCount ∧
    ∃ a b,
      (((Read.construct "r1" 60).addVariant 100 'A' 0 30).addVariant 50 'T' 1 20).sortVariants.getPosition 0
        = some a ∧
      (((Read.construct "r1" 60).addVariant 100 'A' 0 30).addVariant 50 'T' 1 20).sortVariants.getPosition 1
        = some b ∧ a ≤ b :=
  sortVariants_monotone_and_count_preserved
    (((Read.construct "r1" 60).addVariant 100 'A' 0 30).addVariant 50 'T' 1 20)
    0 1 (by decide) (by decide)

/-- C2: `sortVariants` is idempotent — applying it twice yields the very same
`Read` (hence the same positions, bases and entries at every index) as
applying it once. -/
theorem sortVariants_idempotent (r : Read) :
    r.sortVariants.sortVariants = r.sortVariants := by
  have h : (r.variants.insertionSort posLE).insertionSort posLE
      = r.variants.insertionSort posLE :=
    List.Sorted.insertionSort_eq (List.sorted_insertionSort posLE r.variants)
  simp [Read.sortVariants, h]

/-- C3: For every `Read` whose variants have been sorted and which holds at
least one variant: `firstPosition` agrees with `getPosition 0`,
`lastPosition` agrees with `getPosition (getVariantCount - 1)`, and
`firstPosition ≤ lastPosition`. -/
theorem first_last_positions_after_sort (r : Read) (h : 1 ≤ r.getVariantCount) :
    r.sortVariants.firstPosition = r.sortVariants.getPosition 0 ∧
    r.sortVariants.lastPosition
      = r.sortVariants.getPosition (r.sortVariants.getVariantCount - 1) ∧
    ∃ a b, r.sortVariants.firstPosition = some a ∧
      r.sortVariants.lastPosition = some b ∧ a ≤ b := by
  simp only [Read.firstPosition, Read.lastPosition, Read.getPosition,
    Read.getVariantCount, sortVariants_variants] at h ⊢
  have hlen : (r.variants.insertionSort posLE).length = r.variants.length :=
    (List.perm_insertionSort posLE r.variants).length_eq
  have hpos : 0 < (r.variants.insertionSort posLE).length := by omega
  have hlast : (r.variants.insertionSort posLE).length - 1
      < (r.variants.insertionSort posLE).length := by omega
  refine ⟨?_, ?_, ?_⟩
  · rw [List.head?_eq_getElem?, List.get?_eq_getElem?]
  · rw [List.getLast?_eq_getElem?, List.get?_eq_getElem?]
  · have hrel : posLE ((r.variants.insertionSort posLE).get ⟨0, hpos⟩)
        ((r.variants.insertionSort posLE).get
          ⟨(r.variants.insertionSort posLE).length - 1, hlast⟩) :=
      (List.sorted_insertionSort posLE r.variants).rel_get_of_le
        (Fin.mk_le_mk.mpr (Nat.zero_le _))
    refine ⟨((r.variants.insertionSort posLE).get ⟨0, hpos⟩).position,
      ((r.variants.insertionSort posLE).get
        ⟨(r.variants.insertionSort posLE).length - 1, hlast⟩).position, ?_, ?_, hrel⟩
    · rw [List.head?_eq_getElem?, List.getElem?_eq_getElem hpos]
      simp [List.get_eq_getElem]
    · rw [List.getLast?_eq_getElem?, List.getElem?_eq_getElem hlast]
      simp [List.get_eq_getElem]

/-- C3 witness: the spec scenario — positions 100 then 50 appended, sorted;
first position 50 at index 0, last position 100 at index 1, and 50 ≤ 100. -/
theorem first_last_positions_after_sort_witness :
    1 ≤ (((Read.construct "r1" 60).addVariant 100 'A' 0 30).addVariant 50 'T' 1 20).getVariantCount ∧
    ((((Read.construct "r1" 60).addVariant 100 'A' 0 30).addVariant 50 'T' 1 20).sortVariants.firstPosition
        = (((Read.construct "r1" 60).addVariant 100 'A' 0 30).addVariant 50 'T' 1 20).sortVariants.getPosition 0 ∧
      (((Read.construct "r1" 60).addVariant 100 'A' 0 30).addVariant 50 'T' 1 20).sortVariants.lastPosition
        = (((Read.construct "r1" 60).addVariant 100 'A' 0 30).addVariant 50 'T' 1 20).sortVariants.getPosition
            ((((Read.construct "r1" 60).addVariant 100 'A' 0 30).addVariant 50 'T' 1 20).sortVariants.getVariantCount - 1) ∧
      ∃ a b,
        (((Read.construct "r1" 60).addVariant 100 'A' 0 30).addVariant 50 'T' 1 20).sortVariants.firstPosition
          = some a ∧
        (((Read.construct "r1" 60).addVariant 100 'A' 0 30).addVariant 50 'T' 1 20).sortVariants.lastPosition
          = some b ∧ a ≤ b) :=
  ⟨by decide,
    first_last_positions_after_sort
      (((Read.construct "r1" 60).addVariant 100 'A' 0 30).addVariant 50 'T' 1 20)
      (by decide)⟩

/-- C4: `addPositionsToSet` is purely additive and order-independent: the
resulting set is the union of the previous members with the (converted)
position values stored in the read — for a read built by `appendAll` from a
fresh `construct`, exactly the positions ever appended — no member of the
input set is removed, and the result is unchanged by `sortVariants`. -/
theorem addPositionsToSet_additive_order_independent (r : Read) (s : Finset ℕ)
    (name : String) (mapq : Int) (args : List (Int × Char × Int × Int)) :
    r.addPositionsToSet s
        = s ∪ (r.variants.map (fun e => uintOfInt e.position)).toFinset ∧
    s ⊆ r.addPositionsToSet s ∧
    r.sortVariants.addPositionsToSet s = r.addPositionsToSet s ∧
    ((Read.construct name mapq).appendAll args).addPositionsToSet s
        = s ∪ (args.map (fun t => uintOfInt t.1)).toFinset := by
  refine ⟨foldl_insert_eq_union r.variants s, ?_, ?_, ?_⟩
  · show s ⊆ r.variants.foldl (fun acc e => insert (uintOfInt e.position) acc) s
    rw [foldl_insert_eq_union]
    exact Finset.subset_union_left
  · show (r.sortVariants.variants).foldl _ s = r.variants.foldl _ s
    rw [foldl_insert_eq_union, foldl_insert_eq_union,
      List.toFinset_eq_of_perm _ _ ((sortVariants_perm r).map _)]
  · show ((Read.construct name mapq).appendAll args).variants.foldl _ s = _
    rw [appendAll_variants, foldl_insert_eq_union]
    simp [Read.construct, List.map_map, Function.comp_def, enriched_entry_t.ofArgs]

/-- C5: `setID`/`getID` round-trip with last-write-wins, and `setID` alters no
other state of the read (name, mapping quality, variants). -/
theorem setID_getID_roundtrip (r : Read) (v w : Int) :
    (r.setID v).getID = v ∧ ((r.setID v).setID w).getID = w ∧
    (r.setID v).name = r.name ∧ (r.setID v).mapq = r.mapq ∧
    (r.setID v).variants = r.variants :=
  ⟨rfl, rfl, rfl, rfl, rfl⟩

/-- C6: a freshly constructed read has an empty variant sequence and an unset
identifier holding the distinguishable negative sentinel `-1`, while storing
the given name and mapping quality; `construct` is a total function, so
construction never fails. -/
theorem construct_fresh_read (n : String) (q : Int) :
    (Read.construct n q).getVariantCount = 0 ∧
    (Read.construct n q).getID = -1 ∧ (Read.construct n q).getID < 0 ∧
    (Read.construct n q).name = n ∧ (Read.construct n q).mapq = q := by
  refine ⟨rfl, rfl, ?_, rfl, rfl⟩
  show (-1 : Int) < 0
  decide

/-- C7: the partial queries fail fast (modelled as `none`) exactly when their
precondition is violated — `firstPosition`/`lastPosition` on an empty read,
`getPosition`/`getEntry` at an index outside `0 ≤ i < getVariantCount` — and
return normally (`some`) under valid preconditions. -/
theorem queries_fail_fast_iff_precondition_violated (r : Read) (i : Nat) :
    (r.firstPosition = none ↔ r.getVariantCount = 0) ∧
    (r.lastPosition = none ↔ r.getVariantCount = 0) ∧
    (r.getPosition i = none ↔ ¬ i < r.getVariantCount) ∧
    (r.getEntry i = none ↔ ¬ i < r.getVariantCount) := by
  simp only [Read.firstPosition, Read.lastPosition, Read.getPosition,
    Read.getEntry, Read.getVariantCount]
  refine ⟨?_, ?_, ?_, ?_⟩
  · simp [List.head?_eq_getElem?, List.getElem?_eq_none_iff, List.length_eq_zero]
  · rw [List.getLast?_eq_getElem?]
    simp only [Option.map_eq_none', List.getElem?_eq_none_iff]
    omega
  · simp [List.get?_eq_getElem?, List.getElem?_eq_none_iff, Nat.not_lt]
  · simp [List.get?_eq_getElem?, List.getElem?_eq_none_iff, Nat.not_lt]

/-- C8: `addVariant position base allele quality` appends exactly one record
`{position, base, Entry(0, allele, quality)}` at the end: the count grows by
one, every previously stored record keeps its index and contents, and the
arguments are stored verbatim, unvalidated and unreordered. -/
theorem addVariant_appends_one_record (r : Read) (p : Int) (b : Char)
    (a q : Int) (i : Nat) (hi : i < r.getVariantCount) :
    (r.addVariant p b a q).getVariantCount = r.getVariantCount + 1 ∧
    (r.addVariant p b a q).getPosition i = r.getPosition i ∧
    (r.addVariant p b a q).getEntry i = r.getEntry i ∧
    (r.addVariant p b a q).variants
      = r.variants ++ [enriched_entry_t.ofArgs p b a q] ∧
    (r.addVariant p b a q).getPosition r.getVariantCount = some p ∧
    (r.addVariant p b a q).getEntry r.getVariantCount
      = some { read_id := 0, allele := a, quality := q } := by
  simp only [Read.getVariantCount, Read.getPosition, Read.getEntry,
    Read.addVariant] at hi ⊢
  refine ⟨by simp, ?_, ?_, by trivial, ?_, ?_⟩
  · rw [List.get?_eq_getElem?, List.get?_eq_getElem?, List.getElem?_append_left hi]
  · rw [List.get?_eq_getElem?, List.get?_eq_getElem?, List.getElem?_append_left hi]
  · rw [List.get?_eq_getElem?, List.getElem?_concat_length]
    rfl
  · rw [List.get?_eq_getElem?, List.getElem?_concat_length]
    rfl

/-- C8 witness: appending to a one-variant read grows the count to 2, keeps
the record at index 0, and stores the new arguments verbatim at index 1. -/
theorem addVariant_appends_one_record_witness :
    (((Read.construct "r" 60).addVariant 7 'A' 0 30).addVariant 9 'C' 1 31).getVariantCount
        = ((Read.construct "r" 60).addVariant 7 'A' 0 30).getVariantCount + 1 ∧
    (((Read.construct "r" 60).addVariant 7 'A' 0 30).addVariant 9 'C' 1 31).getPosition 0
        = ((Read.construct "r" 60).addVariant 7 'A' 0 30).getPosition 0 ∧
    (((Read.construct "r" 60).addVariant 7 'A' 0 30).addVariant 9 'C' 1 31).getEntry 0
        = ((Read.construct "r" 60).addVariant 7 'A' 0 30).getEntry 0 ∧
    (((Read.construct "r" 60).addVariant 7 'A' 0 30).addVariant 9 'C' 1 31).variants
        = ((Read.construct "r" 60).addVariant 7 'A' 0 30).variants
            ++ [enriched_entry_t.ofArgs 9 'C' 1 31] ∧
    (((Read.construct "r" 60).addVariant 7 'A' 0 30).addVariant 9 'C' 1 31).getPosition
        ((Read.construct "r" 60).addVariant 7 'A' 0 30).getVariantCount = some 9 ∧
    (((Read.construct "r" 60).addVariant 7 'A' 0 30).addVariant 9 'C' 1 31).getEntry
        ((Read.construct "r" 60).addVariant 7 'A' 0 30).getVariantCount
      = some { read_id := 0, allele := 1, quality := 31 } :=
  addVariant_appends_one_record ((Read.construct "r" 60).addVariant 7 'A' 0 30)
    9 'C' 1 31 0 (by decide)

/-- C9: the name and mapping quality of a read are unchanged by every
state-transforming operation of the interface (`addVariant`, `sortVariants`,
`setID`); the queries (`firstPosition`, `lastPosition`, `getID`,
`addPositionsToSet`, `getPosition`, `getEntry`, `getVariantCount`) are pure
functions of the read — in `read.h` they are `const` and return fresh values —
so they alter no field at all. -/
theorem name_mapq_immutable (r : Read) (p : Int) (b : Char) (a q v : Int) :
    (r.addVariant p b a q).name = r.name ∧ (r.addVariant p b a q).mapq = r.mapq ∧
    r.sortVariants.name = r.name ∧ r.sortVariants.mapq = r.mapq ∧
    (r.setID v).name = r.name ∧ (r.setID v).mapq = r.mapq :=
  ⟨rfl, rfl, rfl, rfl, rfl, rfl⟩

/-- C10: positions are stored as signed integers but
`addPositionsToSet` feeds them into a set of unsigned 32-bit values, so each
inserted element is the stored position reduced modulo 2^32; a negative
stored position (any representable `int`, `-2^31 ≤ p < 0`) therefore appears
in the caller's set as the large unsigned value `p + 2^32 ≥ 2^31`. -/
theorem addPositionsToSet_converts_modulo (r : Read) (p : Int) (b : Char)
    (a q : Int) (hrep : -(2 ^ 31) ≤ p) (hneg : p < 0) :
    uintOfInt p = (p + 2 ^ 32).toNat ∧
    2 ^ 31 ≤ uintOfInt p ∧ uintOfInt p < 2 ^ 32 ∧
    uintOfInt p ∈ (r.addVariant p b a q).addPositionsToSet ∅ := by
  have hmod : uintOfInt p = (p + 2 ^ 32).toNat := by
    simp only [uintOfInt]
    omega
  refine ⟨hmod, by simp only [uintOfInt]; omega, by simp only [uintOfInt]; omega, ?_⟩
  show uintOfInt p ∈ (r.addVariant p b a q).variants.foldl
    (fun acc e => insert (uintOfInt e.position) acc) ∅
  rw [foldl_insert_eq_union]
  simp only [Read.addVariant, List.map_append, List.mem_union_iff.symm]
  refine Finset.mem_union_right _ (List.mem_toFinset.mpr ?_)
  refine List.mem_append_right _ ?_
  simp [enriched_entry_t.ofArgs]

/-- C10 witness: a read holding position `-1` exports it to the unsigned set
as `4294967295 = 2^32 - 1`. -/
theorem addPositionsToSet_converts_modulo_witness :
    uintOfInt (-1) = ((-1 : Int) + 2 ^ 32).toNat ∧
    2 ^ 31 ≤ uintOfInt (-1) ∧ uintOfInt (-1) < 2 ^ 32 ∧
    uintOfInt (-1)
      ∈ ((Read.construct "r" 60).addVariant (-1) 'A' 0 30).addPositionsToSet ∅ :=
  addPositionsToSet_converts_modulo (Read.construct "r" 60) (-1) 'A' 0 30
    (by decide) (by decide)

end WhatsHap
